import Mathlib

/-!
# Verification of `ndindex/_crt.py`

A shallow embedding of the Chinese-Remainder-Theorem helpers of
`ndindex/_crt.py` (`gcdex`, `prod`, `_crt`, `solve_congruence` with its inner
`combine`, and `crt`), together with theorems settling the specification
claims about them.

Python integer semantics: `//` is floor division (`Int.fdiv`) and `%` is
floor modulus (`Int.fmod`); `math.gcd` returns the nonnegative gcd of the
absolute values (`Int.gcd`).  A Python call that returns `None`, returns an
`int`, or raises `NameError` (the `return n` in `solve_congruence` with `n`
unassigned) is modelled by the three-constructor type `PyResult`.
-/

/-- Python `math.gcd` on integers: the nonnegative gcd of absolute values. -/
def pygcd (a b : Int) : Int := Int.gcd a b

/-- The `while b:` loop of `gcdex`, on the state `(a, b, x, y, r, s)` after the
sign normalization (so `a`, `b` are the nonnegative remainders).  Mirrors
`(c, q) = (a % b, a // b); (a, b, r, s, x, y) = (b, c, x - q*r, y - q*s, r, s)`. -/
def gcdexLoop (a b : Nat) (x y r s : Int) : Int × Int × Int :=
  if hb : b = 0 then (x, y, (a : Int))
  else gcdexLoop b (a % b) r s (x - (a / b : Nat) * r) (y - (a / b : Nat) * s)
termination_by b
decreasing_by exact Nat.mod_lt a (Nat.pos_of_ne_zero hb)

/-- Shallow embedding of `gcdex(a, b)` from `ndindex/_crt.py`: the zero edge
cases, the sign normalization, then the extended-Euclid loop. -/
def gcdex (a b : Int) : Int × Int × Int :=
  if a = 0 ∧ b = 0 then (0, 1, 0)
  else if a = 0 then (0, b.fdiv |b|, |b|)
  else if b = 0 then (a.fdiv |a|, 0, |a|)
  else
    let x_sign : Int := if a < 0 then -1 else 1
    let y_sign : Int := if b < 0 then -1 else 1
    let (x, y, g) := gcdexLoop a.natAbs b.natAbs 1 0 0 1
    (x * x_sign, y * y_sign, g)

/-- The `gcdex` while loop with an explicit iteration budget: `none` means the
budget was exhausted before the loop finished. -/
def gcdexLoopFuel : Nat → Nat → Nat → Int → Int → Int → Int → Option (Int × Int × Int)
  | 0, _, _, _, _, _, _ => Option.none
  | fuel + 1, a, b, x, y, r, s =>
    if b = 0 then some (x, y, (a : Int))
    else gcdexLoopFuel fuel b (a % b) r s (x - (a / b : Nat) * r) (y - (a / b : Nat) * s)

/-- `gcdex` run with an iteration budget of `|b| + 1` for the loop: since the
remainder strictly decreases each iteration, this budget always suffices. -/
def gcdexFuel (a b : Int) : Option (Int × Int × Int) :=
  if a = 0 ∧ b = 0 then some (0, 1, 0)
  else if a = 0 then some (0, b.fdiv |b|, |b|)
  else if b = 0 then some (a.fdiv |a|, 0, |a|)
  else
    let x_sign : Int := if a < 0 then -1 else 1
    let y_sign : Int := if b < 0 then -1 else 1
    (gcdexLoopFuel (b.natAbs + 1) a.natAbs b.natAbs 1 0 0 1).map
      fun t => (t.1 * x_sign, t.2.1 * y_sign, t.2.2)

/-- `prod(seq) = reduce(mul, seq, 1)`. -/
def prod (seq : List Int) : Int := seq.foldl (· * ·) 1

/-- Shallow embedding of `_crt(U, M)` from `ndindex/_crt.py`. -/
def _crt (U M : List Int) : Int :=
  let p := prod M
  let v := (U.zip M).foldl
    (fun v um =>
      let e := p.fdiv um.2
      let s := (gcdex e um.2).1
      v + e * ((um.1 * s).fmod um.2)) 0
  v.fmod p

/-- Result of a Python call: `None`, an `int`, or a raised `NameError`. -/
inductive PyResult where
  | none : PyResult
  | int : Int → PyResult
  | nameError : PyResult
  deriving DecidableEq, Repr

/-- The helper `combine((a1, m1), (a2, m2))` nested in `solve_congruence`. -/
def combine (c1 c2 : Int × Int) : Option (Int × Int) :=
  let a1 := c1.1
  let m1 := c1.2
  let a2 := c2.1
  let m2 := c2.2
  let b := a2 - a1
  let g := pygcd (pygcd m1 b) m2
  let a' := m1.fdiv g
  let b' := b.fdiv g
  let c' := m2.fdiv g
  if a' ≠ 1 then
    let t := gcdex a' c'
    if t.2.2 ≠ 1 then Option.none
    else some (a1 + m1 * (b' * t.1), m1 * c')
  else some (a1 + m1 * b', m1 * c')

/-- Lookup in the insertion-ordered association list modelling the Python dict
`uniq` (keys are moduli). -/
def lookupMod : List (Int × Int) → Int → Option Int
  | [], _ => Option.none
  | (m, r) :: rest, k => if m = k then some r else lookupMod rest k

/-- The `check=True` preprocessing of `solve_congruence`: reduce each residue
modulo its modulus, drop redundant pairs, return `none` on a contradictory
duplicate modulus.  The accumulator is the dict `uniq` in insertion order,
holding `(modulus, reduced residue)` entries. -/
def dedupLoop : List (Int × Int) → List (Int × Int) → Option (List (Int × Int))
  | [], acc => some acc
  | (r, m) :: rest, acc =>
    let r' := r.fmod m
    match lookupMod acc m with
    | some r0 => if r' = r0 then dedupLoop rest acc else Option.none
    | Option.none => dedupLoop rest (acc ++ [(m, r')])

/-- The `for rmi in rm: ... else: return n` loop of `solve_congruence`.  The
second argument is the running `rv = (a, m)` (kept unreduced, as in the
source), the third is the variable `n` if it has been assigned.  Falling off
the loop via `break` returns Python `None`; completing the loop executes
`return n`, which raises `NameError` when `n` was never assigned. -/
def solveLoop : List (Int × Int) → Int × Int → Option Int → PyResult
  | [], _, some n => PyResult.int n
  | [], _, Option.none => PyResult.nameError
  | rmi :: rest, rv, _ =>
    match combine rv rmi with
    | Option.none => PyResult.none
    | some (a, m) => solveLoop rest (a, m) (some (a.fmod m))

/-- Shallow embedding of `solve_congruence(*remainder_modulus_pairs, check=...)`. -/
def solve_congruence (pairs : List (Int × Int)) (check : Bool) : PyResult :=
  if check then
    match dedupLoop pairs [] with
    | Option.none => PyResult.none
    | some uniq => solveLoop (uniq.map fun p => (p.2, p.1)) (0, 1) Option.none
  else solveLoop pairs (0, 1) Option.none

/-- Shallow embedding of `crt(m, v, check=...)` from `ndindex/_crt.py`. -/
def crt (m v : List Int) (check : Bool) : PyResult :=
  let result := _crt v m
  if check then
    if ¬ ((v.zip m).all fun p => p.1.fmod p.2 == result.fmod p.2) then
      solve_congruence (v.zip m) false
    else PyResult.int result
  else PyResult.int result

/-! ## The iteration budget suffices: `gcdexFuel` computes `gcdex` -/

theorem gcdexLoopFuel_eq : ∀ (fuel a b : Nat) (x y r s : Int), b < fuel →
    gcdexLoopFuel fuel a b x y r s = some (gcdexLoop a b x y r s) := by
  intro fuel
  induction fuel with
  | zero => intro a b x y r s h; omega
  | succ f ih =>
    intro a b x y r s h
    rw [gcdexLoop]
    by_cases hb : b = 0
    · simp [gcdexLoopFuel, hb]
    · simp only [gcdexLoopFuel, hb, if_neg, dif_neg]
      exact ih b (a % b) r s _ _ (by have := Nat.mod_lt a (Nat.pos_of_ne_zero hb); omega)

theorem gcdexFuel_eq (a b : Int) : gcdexFuel a b = some (gcdex a b) := by
  unfold gcdexFuel gcdex
  by_cases h0 : a = 0 ∧ b = 0
  · simp [h0]
  · by_cases ha : a = 0
    · by_cases hb : b = 0
      · simp [h0, ha, hb]
      · simp [h0, ha, hb]
    · by_cases hb : b = 0
      · simp [h0, ha, hb]
      · simp only [h0, ha, hb, if_false]
        rw [gcdexLoopFuel_eq _ _ _ _ _ _ _ (Nat.lt_succ_self _)]
        rcases gcdexLoop a.natAbs b.natAbs 1 0 0 1 with ⟨x, y, g⟩
        simp

/-! ## Structural evaluators

`gcdexLoop` is a well-founded recursion, which the kernel will not unfold on
concrete inputs.  The twins below route every call of `gcdex` through
`gcdexFuel` (a structural recursion) so that concrete runs of the functions
can be settled by `decide`; each twin is proved equal to the function it
mirrors. -/

/-- `gcdex` computed through the fueled loop. -/
def gcdexT (a b : Int) : Int × Int × Int := (gcdexFuel a b).getD (0, 0, 0)

theorem gcdexT_eq : gcdexT = gcdex := by
  funext a b
  unfold gcdexT
  rw [gcdexFuel_eq]
  rfl

/-- `combine` computed through `gcdexT`. -/
def combineT (c1 c2 : Int × Int) : Option (Int × Int) :=
  let a1 := c1.1
  let m1 := c1.2
  let a2 := c2.1
  let m2 := c2.2
  let b := a2 - a1
  let g := pygcd (pygcd m1 b) m2
  let a' := m1.fdiv g
  let b' := b.fdiv g
  let c' := m2.fdiv g
  if a' ≠ 1 then
    let t := gcdexT a' c'
    if t.2.2 ≠ 1 then Option.none
    else some (a1 + m1 * (b' * t.1), m1 * c')
  else some (a1 + m1 * b', m1 * c')

theorem combineT_eq : combineT = combine := by
  unfold combineT combine
  rw [gcdexT_eq]

/-- `solveLoop` computed through `combineT`. -/
def solveLoopT : List (Int × Int) → Int × Int → Option Int → PyResult
  | [], _, some n => PyResult.int n
  | [], _, Option.none => PyResult.nameError
  | rmi :: rest, rv, _ =>
    match combineT rv rmi with
    | Option.none => PyResult.none
    | some (a, m) => solveLoopT rest (a, m) (some (a.fmod m))

theorem solveLoopT_eq : solveLoopT = solveLoop := by
  funext rm
  induction rm with
  | nil => funext rv n0; cases n0 <;> rfl
  | cons rmi rest ih =>
    funext rv n0
    show solveLoopT (rmi :: rest) rv n0 = solveLoop (rmi :: rest) rv n0
    unfold solveLoopT solveLoop
    rw [combineT_eq]
    cases combine rv rmi with
    | none => rfl
    | some p => rcases p with ⟨a, m⟩; simpa using congrFun (congrFun ih (a, m)) (some (a.fmod m))

/-- `solve_congruence` computed through `solveLoopT`. -/
def solve_congruenceT (pairs : List (Int × Int)) (check : Bool) : PyResult :=
  if check then
    match dedupLoop pairs [] with
    | Option.none => PyResult.none
    | some uniq => solveLoopT (uniq.map fun p => (p.2, p.1)) (0, 1) Option.none
  else solveLoopT pairs (0, 1) Option.none

theorem solve_congruenceT_eq : solve_congruenceT = solve_congruence := by
  unfold solve_congruenceT solve_congruence
  rw [solveLoopT_eq]

/-- `_crt` computed through `gcdexT`. -/
def _crtT (U M : List Int) : Int :=
  let p := prod M
  let v := (U.zip M).foldl
    (fun v um =>
      let e := p.fdiv um.2
      let s := (gcdexT e um.2).1
      v + e * ((um.1 * s).fmod um.2)) 0
  v.fmod p

theorem _crtT_eq : _crtT = _crt := by
  unfold _crtT _crt
  rw [gcdexT_eq]

/-- `crt` computed through the structural twins. -/
def crtT (m v : List Int) (check : Bool) : PyResult :=
  let result := _crtT v m
  if check then
    if ¬ ((v.zip m).all fun p => p.1.fmod p.2 == result.fmod p.2) then
      solve_congruenceT (v.zip m) false
    else PyResult.int result
  else PyResult.int result

theorem crtT_eq : crtT = crt := by
  funext m v check
  unfold crtT crt
  rw [_crtT_eq, solve_congruenceT_eq]


/-! ## Correctness of `gcdex` (extended Euclid) -/

/-- Loop invariant of the extended-Euclid loop: if the coefficient rows express
the current remainders `a` and `b` over the original inputs `A` and `B`, the
loop returns a Bezout triple for `gcd a b`. -/
theorem gcdexLoop_spec (A B : Int) : ∀ (b a : Nat) (x y r s : Int),
    x * A + y * B = (a : Int) → r * A + s * B = (b : Int) →
    (gcdexLoop a b x y r s).1 * A + (gcdexLoop a b x y r s).2.1 * B
        = (gcdexLoop a b x y r s).2.2 ∧
    (gcdexLoop a b x y r s).2.2 = (Nat.gcd a b : Int) := by
  intro b
  induction b using Nat.strong_induction_on with
  | _ b ih =>
    intro a x y r s hx hr
    by_cases hb : b = 0
    · subst hb
      rw [gcdexLoop]
      simp only [dif_pos]
      exact ⟨hx, by simp⟩
    · rw [gcdexLoop, dif_neg hb]
      have hcast : (b : Int) * ((a / b : Nat) : Int) + ((a % b : Nat) : Int) = (a : Int) := by
        exact_mod_cast Nat.div_add_mod a b
      have h2 : (x - (a / b : Nat) * r) * A + (y - (a / b : Nat) * s) * B
          = ((a % b : Nat) : Int) := by
        have : ((a % b : Nat) : Int) = (a : Int) - ((a / b : Nat) : Int) * (b : Int) := by
          linarith
        rw [this, ← hx, ← hr]; ring
      have key := ih (a % b) (Nat.mod_lt a (Nat.pos_of_ne_zero hb)) b r s
        (x - (a / b : Nat) * r) (y - (a / b : Nat) * s) hr h2
      refine ⟨key.1, ?_⟩
      rw [key.2]
      congr 1
      rw [Nat.gcd_comm b (a % b), ← Nat.gcd_rec b a, Nat.gcd_comm b a]

/-- For nonzero `c`, `c // abs(c)` is the sign of `c`. -/
theorem fdiv_abs_eq_sign (c : Int) (hc : c ≠ 0) :
    c.fdiv |c| = if c < 0 then (-1 : Int) else 1 := by
  rcases lt_or_gt_of_ne hc with h | h
  · rw [Int.fdiv_eq_ediv _ (abs_nonneg c), abs_of_neg h, Int.ediv_neg,
      Int.ediv_self hc, if_pos h]
  · rw [Int.fdiv_eq_ediv _ (abs_nonneg c), abs_of_pos h, Int.ediv_self hc,
      if_neg (not_lt.mpr (le_of_lt h))]

/-- The full Bezout specification of `gcdex`. -/
theorem gcdex_spec (a b : Int) :
    (gcdex a b).1 * a + (gcdex a b).2.1 * b = (gcdex a b).2.2 ∧
    (gcdex a b).2.2 = (Int.gcd a b : Int) := by
  by_cases h0 : a = 0 ∧ b = 0
  · obtain ⟨ha, hb⟩ := h0
    subst ha; subst hb
    constructor <;> rfl
  · by_cases ha : a = 0
    · have hb : b ≠ 0 := fun hb => h0 ⟨ha, hb⟩
      subst ha
      have hg : gcdex 0 b = (0, b.fdiv |b|, |b|) := by
        rw [gcdex, if_neg h0, if_pos rfl]
      rw [hg]
      constructor
      · show 0 * 0 + b.fdiv |b| * b = |b|
        rw [fdiv_abs_eq_sign b hb]
        rcases lt_or_gt_of_ne hb with h | h
        · rw [if_pos h]; rw [abs_of_neg h]; ring
        · rw [if_neg (not_lt.mpr (le_of_lt h))]; rw [abs_of_pos h]; ring
      · show |b| = (Int.gcd 0 b : Int)
        rw [Int.abs_eq_natAbs]
        simp [Int.gcd]
    · by_cases hb : b = 0
      · subst hb
        have hg : gcdex a 0 = (a.fdiv |a|, 0, |a|) := by
          rw [gcdex, if_neg h0, if_neg ha, if_pos rfl]
        rw [hg]
        constructor
        · show a.fdiv |a| * a + 0 * 0 = |a|
          rw [fdiv_abs_eq_sign a ha]
          rcases lt_or_gt_of_ne ha with h | h
          · rw [if_pos h]; rw [abs_of_neg h]; ring
          · rw [if_neg (not_lt.mpr (le_of_lt h))]; rw [abs_of_pos h]; ring
        · show |a| = (Int.gcd a 0 : Int)
          rw [Int.abs_eq_natAbs]
          simp [Int.gcd]
      · rcases hL : gcdexLoop a.natAbs b.natAbs 1 0 0 1 with ⟨x, y, g⟩
        have hg : gcdex a b = (x * (if a < 0 then -1 else 1),
            y * (if b < 0 then -1 else 1), g) := by
          rw [gcdex, if_neg h0, if_neg ha, if_neg hb, hL]
        have key := gcdexLoop_spec (a.natAbs : Int) (b.natAbs : Int) b.natAbs a.natAbs
          1 0 0 1 (by ring) (by ring)
        rw [hL] at key
        obtain ⟨hbez, hgcd⟩ := key
        simp only at hbez hgcd
        rw [hg]
        have hxa : ∀ c : Int, c ≠ 0 → (if c < 0 then (-1 : Int) else 1) * c
            = (c.natAbs : Int) := by
          intro c hc
          rcases lt_or_gt_of_ne hc with h | h
          · rw [if_pos h]; omega
          · rw [if_neg (not_lt.mpr (le_of_lt h))]; omega
        constructor
        · show x * (if a < 0 then (-1:Int) else 1) * a
              + y * (if b < 0 then (-1:Int) else 1) * b = g
          rw [mul_assoc, hxa a ha, mul_assoc, hxa b hb, hbez]
        · exact hgcd

/-! ## Soundness of `combine` -/

/-- Unfolded form of `combine` with every intermediate `let` expanded. -/
theorem combine_eq (a1 m1 a2 m2 : Int) :
    combine (a1, m1) (a2, m2) =
      (if m1.fdiv (pygcd (pygcd m1 (a2 - a1)) m2) ≠ 1 then
        if (gcdex (m1.fdiv (pygcd (pygcd m1 (a2 - a1)) m2))
            (m2.fdiv (pygcd (pygcd m1 (a2 - a1)) m2))).2.2 ≠ 1 then Option.none
        else some (a1 + m1 * ((a2 - a1).fdiv (pygcd (pygcd m1 (a2 - a1)) m2) *
            (gcdex (m1.fdiv (pygcd (pygcd m1 (a2 - a1)) m2))
              (m2.fdiv (pygcd (pygcd m1 (a2 - a1)) m2))).1),
          m1 * m2.fdiv (pygcd (pygcd m1 (a2 - a1)) m2))
      else some (a1 + m1 * ((a2 - a1).fdiv (pygcd (pygcd m1 (a2 - a1)) m2)),
        m1 * m2.fdiv (pygcd (pygcd m1 (a2 - a1)) m2))) := rfl

/-- The combined gcd `g` of `combine` divides each of `m1`, `a2 - a1`, `m2`,
and is positive as soon as one of `m1`, `m2` is nonzero. -/
theorem combine_g_facts (m1 B m2 : Int) (h : m1 ≠ 0 ∨ m2 ≠ 0) :
    0 < pygcd (pygcd m1 B) m2 ∧ pygcd (pygcd m1 B) m2 ∣ m1 ∧
      pygcd (pygcd m1 B) m2 ∣ B ∧ pygcd (pygcd m1 B) m2 ∣ m2 := by
  have hd1 : (pygcd (pygcd m1 B) m2) ∣ pygcd m1 B := Int.gcd_dvd_left
  have hdm1 : (pygcd m1 B : Int) ∣ m1 := Int.gcd_dvd_left
  have hdB : (pygcd m1 B : Int) ∣ B := Int.gcd_dvd_right
  have hdm2 : (pygcd (pygcd m1 B) m2) ∣ m2 := Int.gcd_dvd_right
  refine ⟨?_, hd1.trans hdm1, hd1.trans hdB, hdm2⟩
  show (0 : Int) < ((Int.gcd (pygcd m1 B) m2 : Nat) : Int)
  rw [Int.natCast_pos, Nat.pos_iff_ne_zero]
  intro hz
  rw [Int.gcd_eq_zero_iff] at hz
  obtain ⟨hg0, hm20⟩ := hz
  rw [show pygcd m1 B = ((Int.gcd m1 B : Nat) : Int) from rfl,
    Int.natCast_eq_zero, Int.gcd_eq_zero_iff] at hg0
  rcases h with h | h
  · exact h hg0.1
  · exact h hm20

/-- Soundness of `combine`: when it succeeds on congruences with nonzero
moduli, the returned modulus is nonzero (and positive when both inputs are
positive), and the returned congruence implies both input congruences. -/
theorem combine_sound {a1 m1 a2 m2 a' m' : Int} (hm1 : m1 ≠ 0) (hm2 : m2 ≠ 0)
    (h : combine (a1, m1) (a2, m2) = some (a', m')) :
    m' ≠ 0 ∧ (0 < m1 → 0 < m2 → 0 < m') ∧
      ∀ x : Int, m' ∣ x - a' → m1 ∣ x - a1 ∧ m2 ∣ x - a2 := by
  rw [combine_eq] at h
  obtain ⟨hgpos, hdm1, hdB, hdm2⟩ := combine_g_facts m1 (a2 - a1) m2 (Or.inl hm1)
  set g := pygcd (pygcd m1 (a2 - a1)) m2 with hgdef
  set aq := m1.fdiv g with haqdef
  set bq := (a2 - a1).fdiv g with hbqdef
  set cq := m2.fdiv g with hcqdef
  have em1 : g * aq = m1 := by
    rw [haqdef, Int.fdiv_eq_ediv_of_dvd hdm1]; exact Int.mul_ediv_cancel' hdm1
  have eB : g * bq = a2 - a1 := by
    rw [hbqdef, Int.fdiv_eq_ediv_of_dvd hdB]; exact Int.mul_ediv_cancel' hdB
  have em2 : g * cq = m2 := by
    rw [hcqdef, Int.fdiv_eq_ediv_of_dvd hdm2]; exact Int.mul_ediv_cancel' hdm2
  have hcq0 : cq ≠ 0 := fun h0 => hm2 (by rw [← em2, h0, mul_zero])
  have hmpos : 0 < m1 → 0 < m2 → 0 < m1 * cq := by
    intro hp1 hp2
    have hcqpos : 0 < cq := by nlinarith
    exact mul_pos hp1 hcqpos
  by_cases hA : aq ≠ 1
  · rw [if_pos hA] at h
    obtain ⟨hbez, hgeq⟩ := gcdex_spec aq cq
    by_cases hg2 : (gcdex aq cq).2.2 ≠ 1
    · rw [if_pos hg2] at h
      exact absurd h (by simp)
    · push_neg at hg2
      rw [if_neg (by rw [hg2]; simp)] at h
      rw [Option.some.injEq, Prod.mk.injEq] at h
      obtain ⟨ha', hm'⟩ := h
      subst ha'
      subst hm'
      refine ⟨mul_ne_zero hm1 hcq0, hmpos, ?_⟩
      intro x hdvd
      obtain ⟨k, hk⟩ := hdvd
      rw [hg2] at hbez
      constructor
      · exact ⟨bq * (gcdex aq cq).1 + cq * k, by linear_combination hk⟩
      · refine ⟨aq * k - bq * (gcdex aq cq).2.1, ?_⟩
        linear_combination hk + eB + (g * bq) * hbez +
          (-(bq * (gcdex aq cq).1) - k * cq) * em1 +
          (k * aq - bq * (gcdex aq cq).2.1) * em2
  · push_neg at hA
    rw [if_neg (by rw [hA]; simp)] at h
    rw [Option.some.injEq, Prod.mk.injEq] at h
    obtain ⟨ha', hm'⟩ := h
    subst ha'
    subst hm'
    refine ⟨mul_ne_zero hm1 hcq0, hmpos, ?_⟩
    intro x hdvd
    obtain ⟨k, hk⟩ := hdvd
    constructor
    · exact ⟨bq + cq * k, by linear_combination hk⟩
    · refine ⟨k, ?_⟩
      linear_combination hk + eB + (g * bq + g * cq * k) * hA +
        (-bq - cq * k) * em1 + k * em2

/-! ## The solver loop and the `check=True` deduplication -/

/-- The floor remainder differs from the dividend by a multiple of the divisor. -/
theorem dvd_fmod_sub (a m : Int) : m ∣ a.fmod m - a :=
  ⟨-(a.fdiv m), by rw [Int.fmod_def]; ring⟩

/-- If `solveLoop` returns an integer `n`, then `n` satisfies every congruence
in the remaining list, and relates to the running pair as recorded. -/
theorem solveLoop_sound : ∀ (rm : List (Int × Int)) (a m : Int) (n0 : Option Int) (n : Int),
    m ≠ 0 → (∀ p ∈ rm, p.2 ≠ 0) →
    solveLoop rm (a, m) n0 = PyResult.int n →
    (∀ p ∈ rm, p.2 ∣ n - p.1) ∧ (rm = [] → n0 = some n) ∧ (rm ≠ [] → m ∣ n - a) := by
  intro rm
  induction rm with
  | nil =>
    intro a m n0 n _ _ h
    refine ⟨by simp, fun _ => ?_, by simp⟩
    cases n0 with
    | none => exact absurd h (by simp [solveLoop])
    | some k => simp [solveLoop] at h; rw [h]
  | cons rmi rest ih =>
    intro a m n0 n hm hmods h
    rw [solveLoop] at h
    rcases hc : combine (a, m) rmi with _ | ⟨a', m'⟩
    · rw [hc] at h; exact absurd h (by simp)
    · rw [hc] at h
      have hrmi2 : rmi.2 ≠ 0 := hmods rmi (by simp)
      have hcs := combine_sound hm hrmi2 (by rw [← hc])
      obtain ⟨hm', _, himp⟩ := hcs
      have key := ih a' m' (some (a'.fmod m')) n hm'
        (fun p hp => hmods p (List.mem_cons_of_mem _ hp)) h
      obtain ⟨hrest, hnil, hne⟩ := key
      have hdvd : m' ∣ n - a' := by
        rcases List.eq_nil_or_concat rest with hr | _
        · rcases hr with rfl
          have := hnil rfl
          rw [Option.some.injEq] at this
          rw [← this]
          exact dvd_fmod_sub a' m'
        · rcases hrest0 : rest with _ | _
          · subst hrest0
            have := hnil rfl
            rw [Option.some.injEq] at this
            rw [← this]
            exact dvd_fmod_sub a' m'
          · exact hne (by simp [hrest0])
      have := himp n hdvd
      refine ⟨?_, by simp, fun _ => this.1⟩
      intro p hp
      rcases List.mem_cons.mp hp with hpe | hpm
      · rw [hpe]; exact this.2
      · exact hrest p hpm

/-- `solveLoop` never raises `NameError` when the list is nonempty or `n` is
already assigned. -/
theorem solveLoop_no_nameError : ∀ (rm : List (Int × Int)) (rv : Int × Int) (n0 : Option Int),
    (rm ≠ [] ∨ ∃ k, n0 = some k) → solveLoop rm rv n0 ≠ PyResult.nameError := by
  intro rm
  induction rm with
  | nil =>
    intro rv n0 h
    rcases h with h | ⟨k, hk⟩
    · exact absurd rfl h
    · subst hk; simp [solveLoop]
  | cons rmi rest ih =>
    intro rv n0 _
    rw [solveLoop]
    rcases hc : combine rv rmi with _ | ⟨a', m'⟩
    · simp
    · exact ih (a', m') (some (a'.fmod m')) (Or.inr ⟨_, rfl⟩)

/-- With positive moduli everywhere, any integer returned by `solveLoop` is
nonnegative. -/
theorem solveLoop_nonneg : ∀ (rm : List (Int × Int)) (a m : Int) (n0 : Option Int) (n : Int),
    0 < m → (∀ p ∈ rm, 0 < p.2) → (∀ k, n0 = some k → 0 ≤ k) →
    solveLoop rm (a, m) n0 = PyResult.int n → 0 ≤ n := by
  intro rm
  induction rm with
  | nil =>
    intro a m n0 n _ _ hn0 h
    cases n0 with
    | none => exact absurd h (by simp [solveLoop])
    | some k =>
      simp [solveLoop] at h
      exact h ▸ hn0 k rfl
  | cons rmi rest ih =>
    intro a m n0 n hm hmods hn0 h
    rw [solveLoop] at h
    rcases hc : combine (a, m) rmi with _ | ⟨a', m'⟩
    · rw [hc] at h; exact absurd h (by simp)
    · rw [hc] at h
      have hrmi2 : 0 < rmi.2 := hmods rmi (by simp)
      obtain ⟨_, hpos, _⟩ := combine_sound (by omega : m ≠ 0) (by omega : rmi.2 ≠ 0)
        (by rw [← hc])
      have hm' : 0 < m' := hpos hm hrmi2
      refine ih a' m' (some (a'.fmod m')) n hm'
        (fun p hp => hmods p (List.mem_cons_of_mem _ hp)) ?_ h
      intro k hk
      rw [Option.some.injEq] at hk
      subst hk
      rw [Int.fmod_eq_emod _ (le_of_lt hm')]
      exact Int.emod_nonneg a' (by omega)

/-- A successful lookup returns an entry of the association list. -/
theorem lookupMod_mem : ∀ (acc : List (Int × Int)) (k r : Int),
    lookupMod acc k = some r → (k, r) ∈ acc := by
  intro acc
  induction acc with
  | nil => intro k r h; exact absurd h (by simp [lookupMod])
  | cons q rest ih =>
    intro k r h
    rcases q with ⟨m, r0⟩
    rw [lookupMod] at h
    by_cases hm : m = k
    · rw [if_pos hm, Option.some.injEq] at h
      subst hm; subst h
      simp
    · rw [if_neg hm] at h
      exact List.mem_cons_of_mem _ (ih k r h)

/-- Bookkeeping of the deduplication pass: the accumulator survives into the
output, every input pair appears in the output with its residue reduced, and
every output entry comes from the accumulator or carries an input modulus. -/
theorem dedupLoop_mem : ∀ (pairs acc out : List (Int × Int)),
    dedupLoop pairs acc = some out →
    (∀ q ∈ acc, q ∈ out) ∧ (∀ p ∈ pairs, (p.2, p.1.fmod p.2) ∈ out) ∧
    (∀ q ∈ out, q ∈ acc ∨ q.1 ∈ pairs.map Prod.snd) := by
  intro pairs
  induction pairs with
  | nil =>
    intro acc out h
    rw [dedupLoop, Option.some.injEq] at h
    subst h
    exact ⟨fun q hq => hq, by simp, fun q hq => Or.inl hq⟩
  | cons p rest ih =>
    intro acc out h
    rcases p with ⟨r, m⟩
    rw [dedupLoop] at h
    rcases hl : lookupMod acc m with _ | r0
    · simp only [hl] at h
      obtain ⟨h1, h2, h3⟩ := ih (acc ++ [(m, r.fmod m)]) out h
      refine ⟨fun q hq => h1 q (List.mem_append_left _ hq), ?_, ?_⟩
      · intro p hp
        rcases List.mem_cons.mp hp with hpe | hpm
        · rw [hpe]
          exact h1 _ (List.mem_append_right _ (by simp))
        · exact h2 p hpm
      · intro q hq
        rcases h3 q hq with hin | hin
        · rcases List.mem_append.mp hin with hin | hin
          · exact Or.inl hin
          · simp at hin
            right
            rw [hin]
            simp
        · right
          simp only [List.map_cons, List.mem_cons]
          exact Or.inr hin
    · simp only [hl] at h
      by_cases he : r.fmod m = r0
      · rw [if_pos he] at h
        obtain ⟨h1, h2, h3⟩ := ih acc out h
        refine ⟨h1, ?_, ?_⟩
        · intro p hp
          rcases List.mem_cons.mp hp with hpe | hpm
          · rw [hpe]
            simp only
            exact h1 _ (by rw [he]; exact lookupMod_mem acc m r0 hl)
          · exact h2 p hpm
        · intro q hq
          rcases h3 q hq with hin | hin
          · exact Or.inl hin
          · right
            simp only [List.map_cons, List.mem_cons]
            exact Or.inr hin
      · rw [if_neg he] at h
        exact absurd h (by simp)

/-! ## Properties of `solve_congruence` -/

/-- Soundness: an integer returned by `solve_congruence` (with the default
`check=True`) satisfies every input congruence. -/
theorem solve_congruence_int_sound (pairs : List (Int × Int))
    (hm : ∀ p ∈ pairs, p.2 ≠ 0) (n : Int)
    (h : solve_congruence pairs true = PyResult.int n) :
    ∀ p ∈ pairs, p.2 ∣ n - p.1 := by
  rw [solve_congruence, if_pos rfl] at h
  rcases hd : dedupLoop pairs [] with _ | uniq
  · rw [hd] at h; exact absurd h (by simp)
  · rw [hd] at h
    obtain ⟨_, h2, h3⟩ := dedupLoop_mem pairs [] uniq hd
    have hmods : ∀ q ∈ uniq.map (fun p => (p.2, p.1)), q.2 ≠ 0 := by
      intro q hq
      rcases List.mem_map.mp hq with ⟨⟨m0, r0⟩, hmem, hqe⟩
      rcases h3 _ hmem with hin | hin
      · exact absurd hin (by simp)
      · rcases List.mem_map.mp hin with ⟨p0, hp0, hp0e⟩
        have : q.2 = p0.2 := by rw [← hqe]; simpa using hp0e.symm
        rw [this]
        exact hm p0 hp0
    obtain ⟨hall, _, _⟩ := solveLoop_sound _ 0 1 Option.none n one_ne_zero hmods h
    intro p hp
    have hmem : (p.1.fmod p.2, p.2) ∈ uniq.map (fun q => (q.2, q.1)) :=
      List.mem_map.mpr ⟨(p.2, p.1.fmod p.2), h2 p hp, rfl⟩
    have hd1 : p.2 ∣ n - p.1.fmod p.2 := by simpa using hall _ hmem
    have hd2 : p.2 ∣ p.1.fmod p.2 - p.1 := dvd_fmod_sub p.1 p.2
    have := dvd_add hd1 hd2
    simpa using this

/-- `solve_congruence` with nonempty input never raises `NameError`. -/
theorem solve_congruence_no_nameError (pairs : List (Int × Int)) (hne : pairs ≠ []) :
    solve_congruence pairs true ≠ PyResult.nameError := by
  rw [solve_congruence, if_pos rfl]
  rcases hd : dedupLoop pairs [] with _ | uniq
  · simp
  · obtain ⟨_, h2, _⟩ := dedupLoop_mem pairs [] uniq hd
    rcases pairs with _ | ⟨p, rest⟩
    · exact absurd rfl hne
    · have : (p.2, p.1.fmod p.2) ∈ uniq := h2 p (by simp)
      apply solveLoop_no_nameError
      left
      intro hnil
      rw [List.map_eq_nil_iff] at hnil
      rw [hnil] at this
      simp at this

/-- With all input moduli positive, any integer returned by `solve_congruence`
is nonnegative. -/
theorem solve_congruence_nonneg (pairs : List (Int × Int))
    (hm : ∀ p ∈ pairs, 0 < p.2) (n : Int)
    (h : solve_congruence pairs true = PyResult.int n) : 0 ≤ n := by
  rw [solve_congruence, if_pos rfl] at h
  rcases hd : dedupLoop pairs [] with _ | uniq
  · rw [hd] at h; exact absurd h (by simp)
  · rw [hd] at h
    obtain ⟨_, _, h3⟩ := dedupLoop_mem pairs [] uniq hd
    have hmods : ∀ q ∈ uniq.map (fun p => (p.2, p.1)), 0 < q.2 := by
      intro q hq
      rcases List.mem_map.mp hq with ⟨⟨m0, r0⟩, hmem, hqe⟩
      rcases h3 _ hmem with hin | hin
      · exact absurd hin (by simp)
      · rcases List.mem_map.mp hin with ⟨p0, hp0, hp0e⟩
        have : q.2 = p0.2 := by rw [← hqe]; simpa using hp0e.symm
        rw [this]
        exact hm p0 hp0
    exact solveLoop_nonneg _ 0 1 Option.none n one_pos hmods (by simp) h

/-! ## Correctness of `_crt` -/

/-- A left fold that only accumulates sums equals the initial value plus the
sum of the mapped list. -/
theorem foldl_add_map (f : Int × Int → Int) :
    ∀ (L : List (Int × Int)) (a : Int),
      L.foldl (fun v t => v + f t) a = a + (L.map f).sum := by
  intro L
  induction L with
  | nil => intro a; simp
  | cons t rest ih =>
    intro a
    rw [List.foldl_cons, ih, List.map_cons, List.sum_cons]
    ring

/-- The sum of a mapped list as a sum over the index range. -/
theorem map_sum_range (f : Int × Int → Int) :
    ∀ L : List (Int × Int),
      (L.map f).sum = ∑ i in Finset.range L.length, f (L.getD i (0, 0)) := by
  intro L
  induction L with
  | nil => simp
  | cons t rest ih =>
    rw [List.map_cons, List.sum_cons, ih, List.length_cons, Finset.sum_range_succ']
    simp [List.getD, add_comm]

/-- `prod` agrees with the Mathlib list product. -/
theorem prod_eq_prod (l : List Int) : prod l = l.prod := List.prod_eq_foldl.symm

/-- `_crt` as a reduced sum of one term per index. -/
theorem _crt_eq_sum (U M : List Int) :
    _crt U M = (∑ i in Finset.range (U.zip M).length,
      (fun um : Int × Int => (prod M).fdiv um.2 *
        ((um.1 * (gcdex ((prod M).fdiv um.2) um.2).1).fmod um.2))
        ((U.zip M).getD i (0, 0))).fmod (prod M) := by
  have h : _crt U M = ((U.zip M).foldl
      (fun v um => v + (fun um : Int × Int => (prod M).fdiv um.2 *
        ((um.1 * (gcdex ((prod M).fdiv um.2) um.2).1).fmod um.2)) um) 0).fmod (prod M) := rfl
  rw [h, foldl_add_map, zero_add, map_sum_range]

/-- Splitting the product of the moduli at index `j`. -/
theorem prod_decomp (M : List Int) (j : Nat) (hj : j < M.length) :
    M.prod = M.getD j 0 * ((M.take j).prod * (M.drop (j + 1)).prod) := by
  rw [List.getD_eq_getElem _ _ hj]
  conv_lhs => rw [← List.take_append_drop j M]
  rw [List.prod_append, List.drop_eq_getElem_cons hj, List.prod_cons]
  ring

/-- `p // m_j` splits off exactly the product of the other moduli. -/
theorem fdiv_prod_eq (M : List Int) (j : Nat) (hj : j < M.length)
    (hpos : 0 < M.getD j 0) :
    M.prod.fdiv (M.getD j 0) = (M.take j).prod * (M.drop (j + 1)).prod := by
  rw [Int.fdiv_eq_ediv _ (le_of_lt hpos), prod_decomp M j hj,
    Int.mul_ediv_cancel_left _ (by omega)]

/-- A modulus with index `i ≠ j` divides the product of the moduli other
than `j`. -/
theorem getD_dvd_sides (M : List Int) (i j : Nat) (hi : i < M.length)
    (hj : j < M.length) (hij : i ≠ j) :
    M.getD i 0 ∣ (M.take j).prod * (M.drop (j + 1)).prod := by
  rcases Nat.lt_or_ge i j with hlt | hge
  · apply dvd_mul_of_dvd_left
    apply List.dvd_prod
    have hlen : i < (M.take j).length := by
      rw [List.length_take]; omega
    have hx : (M.take j).get ⟨i, hlen⟩ = M.getD i 0 := by
      rw [List.getD_eq_getElem _ _ hi]
      simp
    rw [← hx]
    exact List.get_mem _ _ _
  · have hgt : j < i := by omega
    apply Dvd.dvd.mul_left
    apply List.dvd_prod
    have hlen : i - (j + 1) < (M.drop (j + 1)).length := by
      rw [List.length_drop]; omega
    have hx : (M.drop (j + 1)).get ⟨i - (j + 1), hlen⟩ = M.getD i 0 := by
      rw [List.getD_eq_getElem _ _ hi]
      simp only [List.get_eq_getElem, List.getElem_drop]
      congr 1
      omega
    rw [← hx]
    exact List.get_mem _ _ _

/-- A product of integers each coprime to `b` is coprime to `b`. -/
theorem isCoprime_list_prod (b : Int) : ∀ l : List Int,
    (∀ x ∈ l, IsCoprime x b) → IsCoprime l.prod b := by
  intro l
  induction l with
  | nil => intro _; rw [List.prod_nil]; exact isCoprime_one_left
  | cons x rest ih =>
    intro h
    rw [List.prod_cons]
    exact IsCoprime.mul_left (h x (by simp))
      (ih fun y hy => h y (List.mem_cons_of_mem _ hy))

/-- Pairwise coprimality makes each `p // m_i` coprime to `m_i`. -/
theorem gcd_fdiv_prod_eq_one (M : List Int)
    (hpos : ∀ k, k < M.length → 0 < M.getD k 0)
    (hcop : M.Pairwise fun x y => Int.gcd x y = 1)
    (i : Nat) (hi : i < M.length) :
    Int.gcd (M.prod.fdiv (M.getD i 0)) (M.getD i 0) = 1 := by
  rw [fdiv_prod_eq M i hi (hpos i hi), Int.gcd_eq_one_iff_coprime]
  have hpw := List.pairwise_iff_get.mp hcop
  have hgetD : M.getD i 0 = M.get ⟨i, hi⟩ := by
    rw [List.getD_eq_getElem _ _ hi]; rfl
  apply IsCoprime.mul_left
  · apply isCoprime_list_prod
    intro x hx
    obtain ⟨⟨k, hk⟩, hkx⟩ := List.mem_iff_get.mp hx
    have hki : k < i := by
      have := hk; rw [List.length_take] at this; omega
    have hkM : k < M.length := by omega
    have hx2 : x = M.get ⟨k, hkM⟩ := by
      rw [← hkx]; simp
    rw [hx2, ← Int.gcd_eq_one_iff_coprime, hgetD]
    exact hpw ⟨k, hkM⟩ ⟨i, hi⟩ (Fin.mk_lt_mk.mpr hki)
  · apply isCoprime_list_prod
    intro x hx
    obtain ⟨⟨k, hk⟩, hkx⟩ := List.mem_iff_get.mp hx
    have hkl : i + 1 + k < M.length := by
      have := hk; rw [List.length_drop] at this; omega
    have hx2 : x = M.get ⟨i + 1 + k, hkl⟩ := by
      rw [← hkx]; simp
    rw [hx2, ← Int.gcd_eq_one_iff_coprime, Int.gcd_comm, hgetD]
    exact hpw ⟨i, hi⟩ ⟨i + 1 + k, hkl⟩ (Fin.mk_lt_mk.mpr (by omega))

/-- The modulus at `i` divides the whole summand of `_crt` at any other
index `j`. -/
theorem term_dvd (U M : List Int) (i j : Nat) (hi : i < M.length)
    (hj : j < M.length) (hij : i ≠ j) (hpos : ∀ k, k < M.length → 0 < M.getD k 0) :
    M.getD i 0 ∣ (M.prod.fdiv (M.getD j 0)) *
      ((U.getD j 0 * (gcdex (M.prod.fdiv (M.getD j 0)) (M.getD j 0)).1).fmod
        (M.getD j 0)) := by
  apply dvd_mul_of_dvd_left
  rw [fdiv_prod_eq M j hj (hpos j hj)]
  exact getD_dvd_sides M i j hi hj hij

/-- The summand of `_crt` at index `i` reduces to the residue `Ui` modulo
`Mi`, provided `e = p // Mi` is invertible modulo `Mi`. -/
theorem term_emod (P Ui Mi : Int) (hMi : 0 < Mi) (hUi : 0 ≤ Ui) (hUiM : Ui < Mi)
    (hg : Int.gcd (P.fdiv Mi) Mi = 1) :
    (P.fdiv Mi * ((Ui * (gcdex (P.fdiv Mi) Mi).1).fmod Mi)) % Mi = Ui := by
  set e := P.fdiv Mi with hedef
  set s := (gcdex e Mi).1 with hsdef
  set y := (gcdex e Mi).2.1 with hydef
  obtain ⟨hbez, hgeq⟩ := gcdex_spec e Mi
  rw [hgeq, hg] at hbez
  have hbez1 : s * e + y * Mi = 1 := by exact_mod_cast hbez
  rw [Int.fmod_eq_emod _ (le_of_lt hMi)]
  have c2 : Mi ∣ e * ((Ui * s) % Mi) - e * (Ui * s) := by
    refine ⟨-(e * ((Ui * s) / Mi)), ?_⟩
    rw [Int.emod_def]
    ring
  have c3 : Mi ∣ e * (Ui * s) - Ui := by
    refine ⟨-(Ui * y), ?_⟩
    linear_combination Ui * hbez1
  have hdvd : Mi ∣ e * ((Ui * s) % Mi) - Ui := by
    have := dvd_add c2 c3
    simpa using this
  obtain ⟨k, hk⟩ := hdvd
  rw [show e * ((Ui * s) % Mi) = Ui + Mi * k by linarith, Int.add_mul_emod_self_left,
    Int.emod_eq_of_lt hUi hUiM]

/-- Full correctness of `_crt` for pairwise-coprime positive moduli and
in-range residues: the result satisfies every congruence and is reduced into
`[0, prod M)`. -/
theorem _crt_correct (U M : List Int) (hlen : U.length = M.length)
    (hpos : ∀ i : Fin M.length, 0 < M.getD i.val 0)
    (hcop : M.Pairwise fun x y => Int.gcd x y = 1)
    (hU : ∀ i : Fin M.length, 0 ≤ U.getD i.val 0 ∧ U.getD i.val 0 < M.getD i.val 0) :
    (∀ i : Fin M.length, (_crt U M).fmod (M.getD i.val 0) = U.getD i.val 0) ∧
    0 ≤ _crt U M ∧ _crt U M < prod M := by
  have hposk : ∀ k, k < M.length → 0 < M.getD k 0 := fun k hk => hpos ⟨k, hk⟩
  have hPpos : 0 < prod M := by
    rw [prod_eq_prod]
    apply List.prod_pos
    intro a ha
    obtain ⟨⟨k, hk⟩, hka⟩ := List.mem_iff_get.mp ha
    have hae : M.getD k 0 = a := by
      rw [List.getD_eq_getElem _ _ hk, ← hka]; rfl
    rw [← hae]
    exact hposk k hk
  have hcrt := _crt_eq_sum U M
  set f : Int × Int → Int := fun um => (prod M).fdiv um.2 *
    ((um.1 * (gcdex ((prod M).fdiv um.2) um.2).1).fmod um.2) with hfdef
  set S := ∑ i in Finset.range (U.zip M).length, f ((U.zip M).getD i (0, 0)) with hSdef
  have hgetzip : ∀ j, j < M.length →
      (U.zip M).getD j (0, 0) = (U.getD j 0, M.getD j 0) := by
    intro j hj
    have hjz : j < (U.zip M).length := by
      rw [List.length_zip, hlen, Nat.min_self]; omega
    rw [List.getD_eq_getElem _ _ hjz, List.getElem_zip,
      List.getD_eq_getElem _ _ (by omega : j < U.length), List.getD_eq_getElem _ _ hj]
  refine ⟨?_, ?_, ?_⟩
  · intro i
    have hMi : 0 < M.getD i.val 0 := hpos i
    have hMiP : M.getD i.val 0 ∣ prod M := by
      rw [prod_eq_prod, prod_decomp M i.val i.isLt]
      exact dvd_mul_right _ _
    rw [hcrt, Int.fmod_eq_emod _ (le_of_lt hMi), Int.fmod_eq_emod _ (le_of_lt hPpos),
      Int.emod_emod_of_dvd S hMiP]
    have hiz : i.val ∈ Finset.range (U.zip M).length := by
      rw [Finset.mem_range, List.length_zip, hlen, Nat.min_self]
      exact i.isLt
    have hsplit : f ((U.zip M).getD i.val (0, 0)) +
        ∑ j in (Finset.range (U.zip M).length).erase i.val,
          f ((U.zip M).getD j (0, 0)) =
        ∑ j in Finset.range (U.zip M).length, f ((U.zip M).getD j (0, 0)) :=
      Finset.add_sum_erase (Finset.range (U.zip M).length)
        (fun j => f ((U.zip M).getD j (0, 0))) hiz
    rw [← hSdef] at hsplit
    have hdvd : M.getD i.val 0 ∣ S - f ((U.zip M).getD i.val (0, 0)) := by
      rw [← hsplit]
      simp only [add_sub_cancel_left]
      apply Finset.dvd_sum
      intro j hj
      have hjne : j ≠ i.val := (Finset.mem_erase.mp hj).1
      have hjlt : j < M.length := by
        have hmem := (Finset.mem_erase.mp hj).2
        rw [Finset.mem_range, List.length_zip, hlen, Nat.min_self] at hmem
        omega
      rw [hgetzip j hjlt, hfdef]
      simp only
      rw [prod_eq_prod]
      exact term_dvd U M i.val j i.isLt hjlt (fun h => hjne h.symm) hposk
    obtain ⟨k, hk⟩ := hdvd
    have hSeq : S = f ((U.zip M).getD i.val (0, 0)) + M.getD i.val 0 * k := by
      linarith
    rw [hSeq, Int.add_mul_emod_self_left, hgetzip i.val i.isLt, hfdef]
    simp only
    rw [prod_eq_prod]
    exact term_emod M.prod (U.getD i.val 0) (M.getD i.val 0) hMi (hU i).1 (hU i).2
      (gcd_fdiv_prod_eq_one M hposk hcop i.val i.isLt)
  · rw [hcrt, Int.fmod_eq_emod _ (le_of_lt hPpos)]
    exact Int.emod_nonneg _ (by omega)
  · rw [hcrt, Int.fmod_eq_emod _ (le_of_lt hPpos)]
    exact Int.emod_lt_of_pos _ hPpos

/-- For nonzero `c`, the sign as an `if` over `c < 0`. -/
theorem sign_eq_ite (c : Int) (hc : c ≠ 0) :
    Int.sign c = if c < 0 then (-1 : Int) else 1 := by
  rcases lt_or_gt_of_ne hc with h | h
  · rw [if_pos h, Int.sign_eq_neg_one_of_neg h]
  · rw [if_neg (not_lt.mpr (le_of_lt h)), Int.sign_eq_one_of_pos h]

/-! ## Claim theorems -/

/-- C1: `solve_congruence` is claimed (and documented) to return a reduced
`(value, modulus)` pair, with `solve_congruence((2,3),(3,5),(2,7)) == (23, 105)`
and `solve_congruence((2,3),(5,6)) == (5, 6)`.  The code's `return n` drops the
modulus: the calls return the bare integers `23` and `5`, contradicting the
function's own docstring and doctests. -/
theorem C1_solve_congruence_returns_bare_int :
    solve_congruence [(2, 3), (3, 5), (2, 7)] true = PyResult.int 23 ∧
    solve_congruence [(2, 3), (5, 6)] true = PyResult.int 5 := by
  constructor
  · rw [← solve_congruenceT_eq]; decide
  · rw [← solve_congruenceT_eq]; decide

/-- C2: `crt(m, v)` is claimed (and documented) to return the pair
`(DirectCRT(v, m), product(m))`; concretely
`crt([99,97,95],[49,76,65]) == (639985, 912285)`.  The code returns only the
bare value `639985`; the fast-path value and the product are as claimed
(`_crt([49,76,65],[99,97,95]) == 639985`, `99*97*95 == 912285`), but no pair is
ever built, contradicting the function's own doctest. -/
theorem C2_crt_returns_bare_value :
    crt [99, 97, 95] [49, 76, 65] true = PyResult.int 639985 ∧
    _crt [49, 76, 65] [99, 97, 95] = 639985 ∧
    prod [99, 97, 95] = 912285 := by
  refine ⟨?_, ?_, ?_⟩
  · rw [← crtT_eq]; decide
  · rw [← _crtT_eq]; decide
  · decide

/-- C3: for all integers `a`, `b` (zero and negative included),
`gcdex(a, b) = (x, y, g)` satisfies `x*a + y*b = g`, `g = gcd(|a|, |b|)` and
`g ≥ 0`. -/
theorem C3_gcdex_bezout (a b : Int) :
    (gcdex a b).1 * a + (gcdex a b).2.1 * b = (gcdex a b).2.2 ∧
    (gcdex a b).2.2 = (Nat.gcd a.natAbs b.natAbs : Int) ∧
    0 ≤ (gcdex a b).2.2 := by
  obtain ⟨h1, h2⟩ := gcdex_spec a b
  exact ⟨h1, h2, by rw [h2]; exact Int.natCast_nonneg _⟩

/-- C4: for `n ≥ 1` pairwise-coprime positive moduli `M` and residues `U` with
`0 ≤ U[i] < M[i]`, the value `v = _crt(U, M)` satisfies `v mod M[i] = U[i]` for
every `i` and `0 ≤ v < product(M)`. -/
theorem C4_crt_roundtrip (U M : List Int) (hn : 1 ≤ M.length)
    (hlen : U.length = M.length)
    (hpos : ∀ i : Fin M.length, 0 < M.getD i.val 0)
    (hcop : M.Pairwise fun x y => Int.gcd x y = 1)
    (hU : ∀ i : Fin M.length, 0 ≤ U.getD i.val 0 ∧ U.getD i.val 0 < M.getD i.val 0) :
    (∀ i : Fin M.length, (_crt U M).fmod (M.getD i.val 0) = U.getD i.val 0) ∧
    0 ≤ _crt U M ∧ _crt U M < prod M :=
  _crt_correct U M hlen hpos hcop hU

theorem C4_crt_roundtrip_witness :
    (_crt [2, 3, 2] [3, 5, 7]).fmod 5 = 3 ∧
    0 ≤ _crt [2, 3, 2] [3, 5, 7] ∧ _crt [2, 3, 2] [3, 5, 7] < prod [3, 5, 7] := by
  have h := C4_crt_roundtrip [2, 3, 2] [3, 5, 7] (by decide) (by decide)
    (by decide) (by decide) (by decide)
  refine ⟨?_, h.2.1, h.2.2⟩
  have hi := h.1 ⟨1, by decide⟩
  simpa using hi

/-- C5 counterexample: the claim says `solve_congruence` never raises for
well-formed input (nonzero moduli), but the empty sequence — which vacuously
has nonzero moduli — raises `NameError`. -/
theorem C5_counterexample : solve_congruence [] true = PyResult.nameError := by
  decide

/-- C5 (amended to nonempty input): for every nonempty sequence of pairs with
nonzero moduli, `solve_congruence` never raises, and when the congruence
system is mathematically unsatisfiable it returns `None`. -/
theorem C5_unsat_returns_none (pairs : List (Int × Int)) (hne : pairs ≠ [])
    (hm : ∀ p ∈ pairs, p.2 ≠ 0) :
    solve_congruence pairs true ≠ PyResult.nameError ∧
    ((¬ ∃ x : Int, ∀ p ∈ pairs, p.2 ∣ x - p.1) →
      solve_congruence pairs true = PyResult.none) := by
  refine ⟨solve_congruence_no_nameError pairs hne, ?_⟩
  intro hunsat
  rcases hres : solve_congruence pairs true with _ | n | _
  · rfl
  · exact absurd ⟨n, solve_congruence_int_sound pairs hm n hres⟩ hunsat
  · exact absurd hres (solve_congruence_no_nameError pairs hne)

theorem C5_unsat_returns_none_witness :
    solve_congruence [(2, 3), (4, 6)] true = PyResult.none := by
  have h := C5_unsat_returns_none [(2, 3), (4, 6)] (by decide) (by decide)
  apply h.2
  rintro ⟨x, hx⟩
  have h3 := hx (2, 3) (by decide)
  have h6 := hx (4, 6) (by decide)
  simp only at h3 h6
  omega

/-- C6: `crt(m, v, check=True)` returns the fast-path `_crt` value when every
residue check passes, and otherwise returns exactly the output of
`solve_congruence` on the zipped `(residue, modulus)` pairs with
`check=False`. -/
theorem C6_crt_check_dispatch (m v : List Int) :
    ((∀ p ∈ v.zip m, p.1.fmod p.2 = (_crt v m).fmod p.2) →
      crt m v true = PyResult.int (_crt v m)) ∧
    ((∃ p ∈ v.zip m, p.1.fmod p.2 ≠ (_crt v m).fmod p.2) →
      crt m v true = solve_congruence (v.zip m) false) := by
  constructor
  · intro h
    have hall : ((v.zip m).all fun p => p.1.fmod p.2 == (_crt v m).fmod p.2) = true := by
      rw [List.all_eq_true]
      intro p hp
      exact beq_iff_eq.mpr (h p hp)
    unfold crt
    simp [hall]
  · rintro ⟨p, hp, hne⟩
    have hall : ((v.zip m).all fun p => p.1.fmod p.2 == (_crt v m).fmod p.2) = false := by
      rw [List.all_eq_false]
      exact ⟨p, hp, by simpa using hne⟩
    unfold crt
    simp [hall]

theorem C6_crt_check_dispatch_witness :
    crt [99, 97, 95] [49, 76, 65] true = PyResult.int (_crt [49, 76, 65] [99, 97, 95]) ∧
    crt [12, 6, 17] [3, 4, 2] true = solve_congruence ([3, 4, 2].zip [12, 6, 17]) false := by
  constructor
  · apply (C6_crt_check_dispatch [99, 97, 95] [49, 76, 65]).1
    simp only [← _crtT_eq]
    decide
  · apply (C6_crt_check_dispatch [12, 6, 17] [3, 4, 2]).2
    refine ⟨(3, 12), by decide, ?_⟩
    simp only [← _crtT_eq]
    decide

/-- C7: the zero edge cases of `gcdex`: `gcdex(0,0) = (0,1,0)`,
`gcdex(0,b) = (0, sign b, |b|)` for `b ≠ 0`, and symmetrically
`gcdex(a,0) = (sign a, 0, |a|)` for `a ≠ 0`. -/
theorem C7_gcdex_zero_cases :
    gcdex 0 0 = (0, 1, 0) ∧
    (∀ b : Int, b ≠ 0 → gcdex 0 b = (0, Int.sign b, |b|)) ∧
    (∀ a : Int, a ≠ 0 → gcdex a 0 = (Int.sign a, 0, |a|)) := by
  refine ⟨rfl, ?_, ?_⟩
  · intro b hb
    rw [gcdex, if_neg (fun h => hb h.2), if_pos rfl, fdiv_abs_eq_sign b hb,
      ← sign_eq_ite b hb]
  · intro a ha
    rw [gcdex, if_neg (fun h => ha h.1), if_neg ha, if_pos rfl,
      fdiv_abs_eq_sign a ha, ← sign_eq_ite a ha]

theorem C7_gcdex_zero_cases_witness :
    gcdex 0 0 = (0, 1, 0) ∧ gcdex 0 (-7) = (0, -1, 7) ∧ gcdex 5 0 = (1, 0, 5) := by
  refine ⟨C7_gcdex_zero_cases.1, ?_, ?_⟩
  · rw [C7_gcdex_zero_cases.2.1 (-7) (by decide)]
    decide
  · rw [C7_gcdex_zero_cases.2.2 5 (by decide)]
    decide

/-- C8 counterexample: negating an input modulus is claimed to leave the
solver's result unchanged and the returned value nonnegative, but
`solve_congruence((2, 3))` returns `2` while `solve_congruence((2, -3))`
returns `-1`. -/
theorem C8_counterexample :
    solve_congruence [(2, 3)] true = PyResult.int 2 ∧
    solve_congruence [(2, -3)] true = PyResult.int (-1) := by
  constructor
  · rw [← solve_congruenceT_eq]; decide
  · rw [← solve_congruenceT_eq]; decide

/-- C8 (amended): the solver does not normalize negative moduli (negating a
modulus can change the result and make it negative); when every input modulus
is positive, any integer the solver returns is nonnegative. -/
theorem C8_positive_moduli_nonneg (pairs : List (Int × Int))
    (hm : ∀ p ∈ pairs, 0 < p.2) (n : Int)
    (h : solve_congruence pairs true = PyResult.int n) : 0 ≤ n :=
  solve_congruence_nonneg pairs hm n h

theorem C8_positive_moduli_nonneg_witness :
    solve_congruence [(2, 3), (3, 5)] true = PyResult.int 8 ∧ (0 : Int) ≤ 8 := by
  have heval : solve_congruence [(2, 3), (3, 5)] true = PyResult.int 8 := by
    rw [← solve_congruenceT_eq]; decide
  exact ⟨heval, C8_positive_moduli_nonneg [(2, 3), (3, 5)] (by decide) 8 heval⟩

/-- C9: `gcdex` terminates on every input: the loop remainder strictly
decreases, so running the loop with the explicit iteration budget `|b| + 1`
(`gcdexFuel`) never exhausts the budget and returns exactly `gcdex a b`. -/
theorem C9_gcdex_terminates (a b : Int) : gcdexFuel a b = some (gcdex a b) :=
  gcdexFuel_eq a b

/-- C10: calling `solve_congruence` with no pairs executes `return n` with `n`
unassigned, raising `NameError` (for both `check` modes) — in particular it
returns neither `None` nor any integer value such as the identity constraint. -/
theorem C10_empty_input_nameError :
    solve_congruence [] true = PyResult.nameError ∧
    solve_congruence [] false = PyResult.nameError ∧
    PyResult.nameError ≠ PyResult.none := by
  exact ⟨by decide, by decide, by decide⟩
